import Mathlib

/-!
# Verification of `OrderedCounter`

A shallow embedding of `src/OrderedCounter.py`: a `Counter` that remembers
the order in which elements are first encountered.  An instance is modelled
as its ordered sequence of `(key, count)` entries — exactly the data an
`OrderedDict` holds — and every method of the class is translated
statement by statement:

* `get` is `Counter.__getitem__` (via `Counter.__missing__`, a missing key
  reads as `0` and is *not* inserted);
* `containsKey` is the `elem in self` test;
* `setc` is `OrderedDict.__setitem__`: overwriting an existing key keeps
  its position, a new key is appended at the end;
* each binary operator (`__add__`, `__sub__`, `__or__`, `__and__`) is a
  fold over the items of `self` (and then of `other`) carrying the method
  state `(self, other, result)` explicitly, with `result` starting from
  the empty counter `self.__class__()`;
* `__xor__` is literally `self.__or__(other) - self.__and__(other)`;
* the unary `__pos__` / `__neg__` are single folds over `self`;
* `__reduce__` serializes to the ordered item list, and reconstruction
  replays it through `setc`.

Reachable instances have pairwise distinct keys; this invariant is the
predicate `WF`.
-/

set_option linter.unusedVariables false
set_option linter.unusedSectionVars false

abbrev OrderedCounter (K : Type) : Type := List (K × Int)

namespace OrderedCounter

variable {K : Type} [DecidableEq K]

/-- `other[elem]` on a `Counter`: the stored count, or `0` when the key is
absent (`Counter.__missing__` returns `0` without inserting). -/
def get (a : OrderedCounter K) (k : K) : Int :=
  match a with
  | [] => 0
  | p :: t => if p.1 = k then p.2 else get t k

/-- `elem in self`: key membership, regardless of the stored count. -/
def containsKey (a : OrderedCounter K) (k : K) : Bool :=
  match a with
  | [] => false
  | p :: t => if p.1 = k then true else containsKey t k

/-- The iteration order: keys in first-seen order. -/
def keys (a : OrderedCounter K) : List K := a.map Prod.fst

/-- The invariant of every reachable instance: no two entries share a key. -/
def WF (a : OrderedCounter K) : Prop := (keys a).Nodup

instance (a : OrderedCounter K) : Decidable (WF a) :=
  inferInstanceAs (Decidable (keys a).Nodup)

/-- `self[k] = n` through `OrderedDict.__setitem__`: an existing key keeps
its position and gets the new count, a new key is appended at the end. -/
def setc (a : OrderedCounter K) (k : K) (n : Int) : OrderedCounter K :=
  if containsKey a k then a.map (fun p => if p.1 = k then (k, n) else p)
  else a ++ [(k, n)]

/-- The state of a binary method body: `self`, `other` and the `result`
being accumulated. -/
structure MState (K : Type) where
  self : OrderedCounter K
  other : OrderedCounter K
  result : OrderedCounter K

/-- One iteration of a result-building loop: the loop body computes, from
`self`, `other` and the current item, either a count to store into
`result` or nothing. -/
def mstep (f : OrderedCounter K → OrderedCounter K → K × Int → Option Int)
    (st : MState K) (p : K × Int) : MState K :=
  match f st.self st.other p with
  | some n => ⟨st.self, st.other, setc st.result p.1 n⟩
  | none => st

/-- A `for elem, count in src.items():` loop over the method state. -/
def opLoop (f : OrderedCounter K → OrderedCounter K → K × Int → Option Int)
    (src : OrderedCounter K) (st : MState K) : MState K :=
  src.foldl (mstep f) st

/-- The result component of a loop in isolation: the same fold, watching
only `result` (the loop body `g` is the body `f` with `self` and `other`
fixed).  Used to relate the stateful runs to the spec-side definitions. -/
def resLoop (g : K × Int → Option Int) (r : OrderedCounter K)
    (src : OrderedCounter K) : OrderedCounter K :=
  src.foldl (fun acc p =>
    match g p with
    | some n => setc acc p.1 n
    | none => acc) r

/-- `__add__`, first loop body: `newcount = count + other[elem]`, stored
iff `newcount > 0`. -/
def addF1 : OrderedCounter K → OrderedCounter K → K × Int → Option Int :=
  fun _ other p =>
    let newcount := p.2 + get other p.1
    if 0 < newcount then some newcount else none

/-- `__add__`, second loop body: `if elem not in self and count > 0:
result[elem] = count`. -/
def addF2 : OrderedCounter K → OrderedCounter K → K × Int → Option Int :=
  fun self _ p =>
    if containsKey self p.1 then none
    else if 0 < p.2 then some p.2 else none

/-- The full run of `__add__` on the method state. -/
def addRun (a b : OrderedCounter K) : MState K :=
  opLoop addF2 b (opLoop addF1 a ⟨a, b, []⟩)

/-- `__add__`: the returned result. -/
def add (a b : OrderedCounter K) : OrderedCounter K := (addRun a b).result

/-- `__sub__`, first loop body: `newcount = count - other[elem]`, stored
iff `newcount > 0`. -/
def subF1 : OrderedCounter K → OrderedCounter K → K × Int → Option Int :=
  fun _ other p =>
    let newcount := p.2 - get other p.1
    if 0 < newcount then some newcount else none

/-- `__sub__`, second loop body: `if elem not in self and count < 0:
result[elem] = 0 - count`. -/
def subF2 : OrderedCounter K → OrderedCounter K → K × Int → Option Int :=
  fun self _ p =>
    if containsKey self p.1 then none
    else if p.2 < 0 then some (0 - p.2) else none

/-- The full run of `__sub__` on the method state. -/
def subRun (a b : OrderedCounter K) : MState K :=
  opLoop subF2 b (opLoop subF1 a ⟨a, b, []⟩)

/-- `__sub__`: the returned result. -/
def sub (a b : OrderedCounter K) : OrderedCounter K := (subRun a b).result

/-- `__or__`, first loop body: `newcount = other_count if count <
other_count else count`, stored iff `newcount > 0`. -/
def orF1 : OrderedCounter K → OrderedCounter K → K × Int → Option Int :=
  fun _ other p =>
    let other_count := get other p.1
    let newcount := if p.2 < other_count then other_count else p.2
    if 0 < newcount then some newcount else none

/-- `__or__`, second loop body: `if elem not in self and count > 0:
result[elem] = count`. -/
def orF2 : OrderedCounter K → OrderedCounter K → K × Int → Option Int :=
  fun self _ p =>
    if containsKey self p.1 then none
    else if 0 < p.2 then some p.2 else none

/-- The full run of `__or__` on the method state. -/
def orRun (a b : OrderedCounter K) : MState K :=
  opLoop orF2 b (opLoop orF1 a ⟨a, b, []⟩)

/-- `__or__` (union): the returned result. -/
def union (a b : OrderedCounter K) : OrderedCounter K := (orRun a b).result

/-- `__and__`, only loop body: `newcount = count if count < other_count
else other_count`, stored iff `newcount > 0`. -/
def andF : OrderedCounter K → OrderedCounter K → K × Int → Option Int :=
  fun _ other p =>
    let other_count := get other p.1
    let newcount := if p.2 < other_count then p.2 else other_count
    if 0 < newcount then some newcount else none

/-- The full run of `__and__` on the method state (it loops over `self`
only). -/
def andRun (a b : OrderedCounter K) : MState K :=
  opLoop andF a ⟨a, b, []⟩

/-- `__and__` (intersection): the returned result. -/
def inter (a b : OrderedCounter K) : OrderedCounter K := (andRun a b).result

/-- `__xor__` (symmetric difference): literally
`self.__or__(other) - self.__and__(other)`. -/
def symmDiff (a b : OrderedCounter K) : OrderedCounter K :=
  sub (union a b) (inter a b)

/-- `__pos__` loop body: `if count > 0: result[elem] = count`. -/
def posF : OrderedCounter K → OrderedCounter K → K × Int → Option Int :=
  fun _ _ p => if 0 < p.2 then some p.2 else none

/-- The full run of `__pos__` (loops over `self`; there is no operand). -/
def posRun (a : OrderedCounter K) : MState K :=
  opLoop posF a ⟨a, [], []⟩

/-- `__pos__`: the returned result. -/
def pos (a : OrderedCounter K) : OrderedCounter K := (posRun a).result

/-- `__neg__` loop body: `if count < 0: result[elem] = 0 - count`. -/
def negF : OrderedCounter K → OrderedCounter K → K × Int → Option Int :=
  fun _ _ p => if p.2 < 0 then some (0 - p.2) else none

/-- The full run of `__neg__` (loops over `self`; there is no operand). -/
def negRun (a : OrderedCounter K) : MState K :=
  opLoop negF a ⟨a, [], []⟩

/-- `__neg__`: the returned result. -/
def neg (a : OrderedCounter K) : OrderedCounter K := (negRun a).result

/-- `OrderedCounter(iterable)`: each occurrence of a key increments its
count by one; a key is appended to the order when first seen. -/
def ofString (s : String) : OrderedCounter Char :=
  s.toList.foldl (fun r c => setc r c (get r c + 1)) []

/-! ## Operands and the `NotImplemented` protocol

Every binary operator starts with `if not isinstance(other, Counter):
return NotImplemented`.  An operand is therefore either a counter or
anything else; `NotImplemented` is modelled by `none`, a normal result by
`some`. -/

/-- A Python value used as the right operand: either a `Counter` instance
or any non-`Counter` object. -/
inductive PyVal (K : Type) where
  | counter (c : OrderedCounter K)
  | nonCounter

/-- `__add__` with its `isinstance` guard: `NotImplemented` (`none`) for a
non-`Counter` operand, otherwise the computed result. -/
def addChecked (a : OrderedCounter K) : PyVal K → Option (OrderedCounter K)
  | .counter c => some (add a c)
  | .nonCounter => none

/-- `__sub__` with its `isinstance` guard. -/
def subChecked (a : OrderedCounter K) : PyVal K → Option (OrderedCounter K)
  | .counter c => some (sub a c)
  | .nonCounter => none

/-- `__or__` with its `isinstance` guard. -/
def unionChecked (a : OrderedCounter K) : PyVal K → Option (OrderedCounter K)
  | .counter c => some (union a c)
  | .nonCounter => none

/-- `__and__` with its `isinstance` guard. -/
def interChecked (a : OrderedCounter K) : PyVal K → Option (OrderedCounter K)
  | .counter c => some (inter a c)
  | .nonCounter => none

/-- `__xor__` with its `isinstance` guard. -/
def symmDiffChecked (a : OrderedCounter K) : PyVal K → Option (OrderedCounter K)
  | .counter c => some (symmDiff a c)
  | .nonCounter => none

/-! ## Mutations

The class inherits its mutators: `self[k] += d` and `self[k] = n` go
through `OrderedDict.__setitem__` (new keys appended at the end), and
`del self[k]` through `OrderedDict.__delitem__` (the key leaves the
order entirely). -/

/-- A single mutation of an instance. -/
inductive Mut (K : Type) where
  | inc (k : K) (d : Int)
  | seti (k : K) (n : Int)
  | delk (k : K)

/-- Whether a mutation is a deletion. -/
def Mut.isDelete : Mut K → Bool
  | .delk _ => true
  | _ => false

/-- The key a mutation writes (deletions write none). -/
def Mut.written : Mut K → Option K
  | .inc k _ => some k
  | .seti k _ => some k
  | .delk _ => none

/-- Apply one mutation: `self[k] += d`, `self[k] = n`, or `del self[k]`. -/
def applyMut (a : OrderedCounter K) : Mut K → OrderedCounter K
  | .inc k d => setc a k (get a k + d)
  | .seti k n => setc a k n
  | .delk k => a.filter (fun p => decide (p.1 ≠ k))

/-- Apply a sequence of mutations in order. -/
def applyMuts (a : OrderedCounter K) (ms : List (Mut K)) : OrderedCounter K :=
  ms.foldl applyMut a

/-- The keys written by a mutation sequence, each at its first
occurrence, skipping those already in `seen`. -/
def firstWrites (seen : List K) : List (Mut K) → List K
  | [] => []
  | m :: ms =>
    match m.written with
    | some k => if k ∈ seen then firstWrites seen ms
                else k :: firstWrites (k :: seen) ms
    | none => firstWrites seen ms

/-! ## Serialization

`__reduce__` returns `(self.__class__, (OrderedDict(self),))`:
the ordered item list.  Reconstruction feeds that ordered mapping back
through the constructor, which writes each pair via `__setitem__`. -/

/-- `OrderedDict(self)`: the items in iteration order with their counts. -/
def serialize (a : OrderedCounter K) : List (K × Int) :=
  (keys a).map (fun k => (k, get a k))

/-- `self.__class__(mapping)`: replay the ordered pairs through
`__setitem__` starting from an empty instance. -/
def reconstruct (l : List (K × Int)) : OrderedCounter K :=
  l.foldl (fun r p => setc r p.1 p.2) []

/-! ## Spec-side definitions

The specification describes each operation's result declaratively: a
filtered pass over `self`'s items followed (for the binary operations
other than intersection) by a filtered pass over the items unique to
`other`.  These definitions transcribe the spec's words; the theorems
below prove the loops above equal to them. -/

/-- One declarative filtered pass: keep each entry whose count `f`
maps to `some`, with the new count, preserving order. -/
def oFilter (f : K × Int → Option Int) (a : OrderedCounter K) :
    OrderedCounter K :=
  a.filterMap (fun p => (f p).map (fun n => (p.1, n)))

/-- Spec wording of Add: for each key of `self` in `self`'s order, count
`self[key] + other[key]` iff that sum is positive; then each key of
`other` absent from `self`, in `other`'s order, iff `other[key] > 0`. -/
def addSpec (a b : OrderedCounter K) : OrderedCounter K :=
  oFilter (fun p =>
    let newcount := p.2 + get b p.1
    if 0 < newcount then some newcount else none) a ++
  oFilter (fun p =>
    if containsKey a p.1 then none
    else if 0 < p.2 then some p.2 else none) b

/-- Spec wording of Subtract: for each key of `self` in `self`'s order,
count `self[key] - other[key]` iff positive; then each key of `other`
absent from `self`, iff `other[key] < 0`, with count `-other[key]`. -/
def subSpec (a b : OrderedCounter K) : OrderedCounter K :=
  oFilter (fun p =>
    let newcount := p.2 - get b p.1
    if 0 < newcount then some newcount else none) a ++
  oFilter (fun p =>
    if containsKey a p.1 then none
    else if p.2 < 0 then some (-p.2) else none) b

/-- Spec wording of Union: maximum of the two counts, kept iff positive,
over `self`'s keys; then keys unique to `other` with positive counts. -/
def unionSpec (a b : OrderedCounter K) : OrderedCounter K :=
  oFilter (fun p =>
    let newcount := max p.2 (get b p.1)
    if 0 < newcount then some newcount else none) a ++
  oFilter (fun p =>
    if containsKey a p.1 then none
    else if 0 < p.2 then some p.2 else none) b

/-- Spec wording of Intersect: minimum of the two counts, kept iff
positive, over `self`'s keys only. -/
def interSpec (a b : OrderedCounter K) : OrderedCounter K :=
  oFilter (fun p =>
    let newcount := min p.2 (get b p.1)
    if 0 < newcount then some newcount else none) a

/-- Spec wording of Positive: keep exactly the entries with positive
count, in order. -/
def posSpec (a : OrderedCounter K) : OrderedCounter K :=
  oFilter (fun p => if 0 < p.2 then some p.2 else none) a

/-- Spec wording of Negate: keep exactly the entries with negative count,
negated, in order. -/
def negSpec (a : OrderedCounter K) : OrderedCounter K :=
  oFilter (fun p => if p.2 < 0 then some (-p.2) else none) a

/-- All stored counts are nonnegative. -/
def Nonneg (a : OrderedCounter K) : Prop := ∀ p ∈ a, 0 ≤ p.2

instance (a : OrderedCounter K) : Decidable (Nonneg a) :=
  inferInstanceAs (Decidable (∀ p ∈ a, 0 ≤ p.2))

/-- Python `==` between counters (dict equality): same keys, and the same
count at every key; iteration order does not participate. -/
def contentEq (a b : OrderedCounter K) : Prop :=
  ∀ k, get a k = get b k ∧ containsKey a k = containsKey b k

/-! ## Basic lemmas about lookup, membership and `setc` -/

@[simp] theorem get_nil (k : K) : get ([] : OrderedCounter K) k = 0 := rfl

@[simp] theorem get_cons (p : K × Int) (t : OrderedCounter K) (k : K) :
    get (p :: t) k = if p.1 = k then p.2 else get t k := rfl

@[simp] theorem containsKey_nil (k : K) :
    containsKey ([] : OrderedCounter K) k = false := rfl

@[simp] theorem containsKey_cons (p : K × Int) (t : OrderedCounter K) (k : K) :
    containsKey (p :: t) k = if p.1 = k then true else containsKey t k := rfl

theorem containsKey_append (x y : OrderedCounter K) (k : K) :
    containsKey (x ++ y) k = (containsKey x k || containsKey y k) := by
  induction x with
  | nil => simp
  | cons p t ih => by_cases h : p.1 = k <;> simp [h, ih]

theorem get_append (x y : OrderedCounter K) (k : K) :
    get (x ++ y) k = if containsKey x k then get x k else get y k := by
  induction x with
  | nil => simp
  | cons p t ih => by_cases h : p.1 = k <;> simp [h, ih]

theorem get_eq_zero_of_not_contains {a : OrderedCounter K} {k : K}
    (h : containsKey a k = false) : get a k = 0 := by
  induction a with
  | nil => rfl
  | cons p t ih =>
    by_cases hp : p.1 = k
    · simp [hp] at h
    · simp [hp] at h ⊢; exact ih h

theorem containsKey_iff_mem_keys (a : OrderedCounter K) (k : K) :
    containsKey a k = true ↔ k ∈ keys a := by
  induction a with
  | nil => simp [keys]
  | cons p t ih =>
    have hk : keys (p :: t) = p.1 :: keys t := rfl
    by_cases hp : p.1 = k
    · simp [hk, hp]
    · rw [containsKey_cons, if_neg hp, hk, List.mem_cons, ih]
      constructor
      · exact Or.inr
      · rintro (h | h)
        · exact absurd h.symm hp
        · exact h

theorem setc_of_not_contains {a : OrderedCounter K} {k : K} (n : Int)
    (h : containsKey a k = false) : setc a k n = a ++ [(k, n)] := by
  simp [setc, h]

theorem keys_setc (a : OrderedCounter K) (k : K) (n : Int) :
    keys (setc a k n) = if containsKey a k then keys a else keys a ++ [k] := by
  by_cases h : containsKey a k
  · simp only [setc, h, if_true, keys, List.map_map]
    congr 1
    funext p
    by_cases hp : p.1 = k <;> simp [hp]
  · simp [setc, h, keys]

/-! ## The loop lemmas: frame and result characterization -/

theorem mstep_self (f : OrderedCounter K → OrderedCounter K → K × Int → Option Int)
    (st : MState K) (p : K × Int) : (mstep f st p).self = st.self := by
  unfold mstep; cases f st.self st.other p <;> rfl

theorem mstep_other (f : OrderedCounter K → OrderedCounter K → K × Int → Option Int)
    (st : MState K) (p : K × Int) : (mstep f st p).other = st.other := by
  unfold mstep; cases f st.self st.other p <;> rfl

theorem opLoop_self (f : OrderedCounter K → OrderedCounter K → K × Int → Option Int) :
    ∀ (src : OrderedCounter K) (st : MState K), (opLoop f src st).self = st.self
  | [], _ => rfl
  | p :: t, st => by
    rw [show opLoop f (p :: t) st = opLoop f t (mstep f st p) from rfl,
      opLoop_self f t, mstep_self]

theorem opLoop_other (f : OrderedCounter K → OrderedCounter K → K × Int → Option Int) :
    ∀ (src : OrderedCounter K) (st : MState K), (opLoop f src st).other = st.other
  | [], _ => rfl
  | p :: t, st => by
    rw [show opLoop f (p :: t) st = opLoop f t (mstep f st p) from rfl,
      opLoop_other f t, mstep_other]

theorem opLoop_result (f : OrderedCounter K → OrderedCounter K → K × Int → Option Int) :
    ∀ (src : OrderedCounter K) (st : MState K),
      (opLoop f src st).result = resLoop (f st.self st.other) st.result src
  | [], _ => rfl
  | p :: t, st => by
    rw [show opLoop f (p :: t) st = opLoop f t (mstep f st p) from rfl,
      opLoop_result f t, mstep_self, mstep_other]
    rw [show resLoop (f st.self st.other) st.result (p :: t) =
      resLoop (f st.self st.other)
        (match f st.self st.other p with
         | some n => setc st.result p.1 n
         | none => st.result) t from rfl]
    congr 1
    unfold mstep
    cases f st.self st.other p <;> rfl

@[simp] theorem oFilter_nil (g : K × Int → Option Int) :
    oFilter g ([] : OrderedCounter K) = [] := rfl

theorem oFilter_cons (g : K × Int → Option Int) (p : K × Int)
    (t : OrderedCounter K) :
    oFilter g (p :: t) =
      (match g p with
       | some n => (p.1, n) :: oFilter g t
       | none => oFilter g t) := by
  unfold oFilter
  rw [List.filterMap_cons]
  cases g p <;> rfl

theorem containsKey_oFilter_imp {g : K × Int → Option Int}
    {a : OrderedCounter K} {k : K}
    (h : containsKey (oFilter g a) k = true) : containsKey a k = true := by
  induction a with
  | nil => simp at h
  | cons p t ih =>
    rw [oFilter_cons] at h
    by_cases hp : p.1 = k
    · simp [hp]
    · simp only [containsKey_cons, hp, if_false, if_neg]
      cases hg : g p with
      | some n => rw [hg] at h; simp [hp] at h; exact ih h
      | none => rw [hg] at h; exact ih h

/-- The fundamental bridge: a result-building loop over a source with
distinct keys, writing only keys not already present in the accumulator,
appends exactly the declarative filtered pass. -/
theorem resLoop_eq (g : K × Int → Option Int) :
    ∀ (src : OrderedCounter K) (r : OrderedCounter K),
      (keys src).Nodup →
      (∀ p ∈ src, g p ≠ none → containsKey r p.1 = false) →
      resLoop g r src = r ++ oFilter g src
  | [], r, _, _ => by simp [resLoop]
  | p :: t, r, hnd, hfresh => by
    rw [keys] at hnd
    simp only [List.map_cons, List.nodup_cons] at hnd
    obtain ⟨hp_not_mem, hnd_t⟩ := hnd
    rw [show resLoop g r (p :: t) =
      resLoop g (match g p with
                 | some n => setc r p.1 n
                 | none => r) t from rfl]
    cases hg : g p with
    | none =>
      show resLoop g r t = r ++ oFilter g (p :: t)
      rw [resLoop_eq g t r hnd_t (fun q hq hgq => hfresh q (List.mem_cons_of_mem p hq) hgq),
        oFilter_cons, hg]
    | some n =>
      have hr : containsKey r p.1 = false :=
        hfresh p (List.mem_cons_self p t) (by rw [hg]; exact Option.noConfusion)
      show resLoop g (setc r p.1 n) t = r ++ oFilter g (p :: t)
      rw [setc_of_not_contains n hr]
      rw [resLoop_eq g t (r ++ [(p.1, n)]) hnd_t ?fresh]
      · rw [oFilter_cons, hg, List.append_assoc]
        rfl
      case fresh =>
        intro q hq hgq
        rw [containsKey_append]
        have h1 : containsKey r q.1 = false :=
          hfresh q (List.mem_cons_of_mem p hq) hgq
        have h2 : q.1 ≠ p.1 := by
          intro he
          exact hp_not_mem (he ▸ (List.mem_map_of_mem Prod.fst hq))
        simp [h1, containsKey]
        exact fun h => h2 h.symm

/-! ## Each operation equals its declarative description -/

theorem fresh_of_guard (g1 g2 : K × Int → Option Int) (a : OrderedCounter K)
    (hguard : ∀ p : K × Int, containsKey a p.1 = true → g2 p = none)
    (p : K × Int) (hg : g2 p ≠ none) :
    containsKey (oFilter g1 a) p.1 = false := by
  cases hof : containsKey (oFilter g1 a) p.1
  · rfl
  · exact absurd (hguard p (containsKey_oFilter_imp hof)) hg

theorem if_lt_right_eq_max (x y : Int) : (if x < y then y else x) = max x y := by
  rcases le_or_lt y x with h | h
  · rw [if_neg (not_lt.mpr h), max_eq_left h]
  · rw [if_pos h, max_eq_right h.le]

theorem if_lt_left_eq_min (x y : Int) : (if x < y then x else y) = min x y := by
  rcases le_or_lt y x with h | h
  · rw [if_neg (not_lt.mpr h), min_eq_right h]
  · rw [if_pos h, min_eq_left h.le]

theorem oFilter_congr {g g2 : K × Int → Option Int} (a : OrderedCounter K)
    (h : ∀ p, g p = g2 p) : oFilter g a = oFilter g2 a := by
  have he : g = g2 := funext h
  rw [he]

theorem add_eq (a b : OrderedCounter K) (ha : WF a) (hb : WF b) :
    add a b = addSpec a b := by
  unfold add addRun
  rw [opLoop_result, opLoop_self, opLoop_other, opLoop_result]
  show resLoop (addF2 a b) (resLoop (addF1 a b) [] a) b = addSpec a b
  rw [resLoop_eq (addF1 a b) a [] ha (fun p hp hg => rfl), List.nil_append,
    resLoop_eq (addF2 a b) b _ hb
      (fun p hp hg => fresh_of_guard _ _ a (fun q hq => by simp [addF2, hq]) p hg)]
  rfl

theorem sub_eq (a b : OrderedCounter K) (ha : WF a) (hb : WF b) :
    sub a b = subSpec a b := by
  unfold sub subRun
  rw [opLoop_result, opLoop_self, opLoop_other, opLoop_result]
  show resLoop (subF2 a b) (resLoop (subF1 a b) [] a) b = subSpec a b
  rw [resLoop_eq (subF1 a b) a [] ha (fun p hp hg => rfl), List.nil_append,
    resLoop_eq (subF2 a b) b _ hb
      (fun p hp hg => fresh_of_guard _ _ a (fun q hq => by simp [subF2, hq]) p hg)]
  unfold subSpec
  congr 1
  apply oFilter_congr
  intro p
  simp only [subF2, zero_sub]

theorem union_eq (a b : OrderedCounter K) (ha : WF a) (hb : WF b) :
    union a b = unionSpec a b := by
  unfold union orRun
  rw [opLoop_result, opLoop_self, opLoop_other, opLoop_result]
  show resLoop (orF2 a b) (resLoop (orF1 a b) [] a) b = unionSpec a b
  rw [resLoop_eq (orF1 a b) a [] ha (fun p hp hg => rfl), List.nil_append,
    resLoop_eq (orF2 a b) b _ hb
      (fun p hp hg => fresh_of_guard _ _ a (fun q hq => by simp [orF2, hq]) p hg)]
  unfold unionSpec
  congr 1
  apply oFilter_congr
  intro p
  simp only [orF1, if_lt_right_eq_max]

theorem inter_eq (a b : OrderedCounter K) (ha : WF a) :
    inter a b = interSpec a b := by
  unfold inter andRun
  rw [opLoop_result]
  show resLoop (andF a b) [] a = interSpec a b
  rw [resLoop_eq (andF a b) a [] ha (fun p hp hg => rfl), List.nil_append]
  apply oFilter_congr
  intro p
  simp only [andF, if_lt_left_eq_min]

theorem pos_eq (a : OrderedCounter K) (ha : WF a) : pos a = posSpec a := by
  unfold pos posRun
  rw [opLoop_result]
  show resLoop (posF a []) [] a = posSpec a
  rw [resLoop_eq (posF a []) a [] ha (fun p hp hg => rfl), List.nil_append]
  rfl

theorem neg_eq (a : OrderedCounter K) (ha : WF a) : neg a = negSpec a := by
  unfold neg negRun
  rw [opLoop_result]
  show resLoop (negF a []) [] a = negSpec a
  rw [resLoop_eq (negF a []) a [] ha (fun p hp hg => rfl), List.nil_append]
  apply oFilter_congr
  intro p
  simp only [negF, zero_sub]

/-! ## The claims -/

/-- Claim C1: for all counters `a`, `b`, `Add(a, b)` lists, for each key
of `a` in `a`'s first-seen order, the count `a[key] + b[key]` iff that
sum is strictly positive, followed by each key of `b` absent from `a`,
in `b`'s order, with count `b[key]`, iff `b[key] > 0`; and on the
character strings `"abbbd"` and `"bcc"` it yields exactly the ordered
pairs `[(a,1), (b,4), (d,1), (c,2)]`. -/
theorem add_matches_spec :
    (∀ (K : Type) [DecidableEq K] (a b : OrderedCounter K),
      WF a → WF b → add a b = addSpec a b) ∧
    add (ofString "abbbd") (ofString "bcc") =
      [('a', 1), ('b', 4), ('d', 1), ('c', 2)] :=
  ⟨fun K _ a b ha hb => add_eq a b ha hb, by decide⟩

/-- Witness for C1 at the concrete strings of the claim. -/
theorem add_matches_spec_witness :
    WF (ofString "abbbd") ∧ WF (ofString "bcc") ∧
    add (ofString "abbbd") (ofString "bcc") =
      addSpec (ofString "abbbd") (ofString "bcc") :=
  ⟨by decide, by decide,
    add_matches_spec.1 Char (ofString "abbbd") (ofString "bcc")
      (by decide) (by decide)⟩

/-- Claim C2: for all counters `a`, `b`, `Subtract(a, b)` lists, for each
key of `a` in `a`'s order, the count `a[key] - b[key]` iff that
difference is strictly positive, followed by each key of `b` absent from
`a`, in `b`'s order, iff `b[key] < 0`, with count `-b[key]`; and on the
strings `"abbbc"` and `"bccd"` it yields exactly `[(a,1), (b,2)]`. -/
theorem sub_matches_spec :
    (∀ (K : Type) [DecidableEq K] (a b : OrderedCounter K),
      WF a → WF b → sub a b = subSpec a b) ∧
    sub (ofString "abbbc") (ofString "bccd") = [('a', 1), ('b', 2)] :=
  ⟨fun K _ a b ha hb => sub_eq a b ha hb, by decide⟩

/-- Witness for C2 at the concrete strings of the claim. -/
theorem sub_matches_spec_witness :
    WF (ofString "abbbc") ∧ WF (ofString "bccd") ∧
    sub (ofString "abbbc") (ofString "bccd") =
      subSpec (ofString "abbbc") (ofString "bccd") :=
  ⟨by decide, by decide,
    sub_matches_spec.1 Char (ofString "abbbc") (ofString "bccd")
      (by decide) (by decide)⟩

/-- Claim C3: `Intersect(a, b)` iterates only the keys of `a`, in `a`'s
order, keeping each key with count `min(a[key], b[key])` iff that
minimum is strictly positive; a key present only in `b` is never in the
result, even when `b` maps it to a negative count. -/
theorem inter_matches_spec :
    ∀ (K : Type) [DecidableEq K] (a b : OrderedCounter K), WF a →
      inter a b = interSpec a b ∧
      ∀ k, containsKey a k = false → containsKey (inter a b) k = false := by
  intro K _ a b ha
  refine ⟨inter_eq a b ha, fun k hk => ?_⟩
  rw [inter_eq a b ha]
  cases h : containsKey (interSpec a b) k
  · rfl
  · have := containsKey_oFilter_imp (g := fun p =>
      let newcount := min p.2 (get b p.1)
      if 0 < newcount then some newcount else none) (a := a) h
    rw [this] at hk
    exact Bool.noConfusion hk

/-- Witness for C3, with a key unique to `b` carrying a negative count. -/
theorem inter_matches_spec_witness :
    WF [('x', (2 : Int))] ∧
    (inter [('x', (2 : Int))] [('y', (-3 : Int)), ('x', 1)] =
        interSpec [('x', (2 : Int))] [('y', (-3 : Int)), ('x', 1)] ∧
      ∀ k, containsKey [('x', (2 : Int))] k = false →
        containsKey (inter [('x', (2 : Int))] [('y', (-3 : Int)), ('x', 1)]) k = false) :=
  ⟨by decide,
    inter_matches_spec Char [('x', 2)] [('y', -3), ('x', 1)] (by decide)⟩

/-- Claim C4: `SymmetricDifference(a, b)` is exactly
`Subtract(Union(a, b), Intersect(a, b))`, and on the strings `"abbbc"`
and `"bcc"` it yields exactly `[(a,1), (b,2), (c,1)]`. -/
theorem symmDiff_matches_spec :
    (∀ (K : Type) [DecidableEq K] (a b : OrderedCounter K),
      symmDiff a b = sub (union a b) (inter a b)) ∧
    symmDiff (ofString "abbbc") (ofString "bcc") =
      [('a', 1), ('b', 2), ('c', 1)] :=
  ⟨fun K _ a b => rfl, by decide⟩

/-- Claim C8: `Add(a, empty)` equals `Positive(a)` — the copy of `a`
keeping only its strictly positive entries in `a`'s relative order —
in both content and iteration order. -/
theorem add_empty_eq_pos :
    ∀ (K : Type) [DecidableEq K] (a : OrderedCounter K), WF a →
      add a [] = pos a := by
  intro K _ a ha
  rw [add_eq a [] ha (by simp [WF, keys]), pos_eq a ha]
  unfold addSpec posSpec
  rw [oFilter_nil, List.append_nil]
  apply oFilter_congr
  intro p
  simp only [get_nil, add_zero]

/-- Witness for C8 on an instance holding a zero and a negative count. -/
theorem add_empty_eq_pos_witness :
    WF [('a', (2 : Int)), ('b', -1), ('c', 0)] ∧
    add [('a', (2 : Int)), ('b', -1), ('c', 0)] [] =
      pos [('a', (2 : Int)), ('b', -1), ('c', 0)] :=
  ⟨by decide, add_empty_eq_pos Char [('a', 2), ('b', -1), ('c', 0)] (by decide)⟩

/-- Claim C5: each binary operation signals `NotImplemented` (`none`)
exactly when its operand is not a counter, producing no partial result,
and returns a computed result for every counter operand. -/
theorem checked_ops_guard :
    ∀ (K : Type) [DecidableEq K] (a : OrderedCounter K) (o : PyVal K),
      (addChecked a o = none ↔ o = PyVal.nonCounter) ∧
      (subChecked a o = none ↔ o = PyVal.nonCounter) ∧
      (unionChecked a o = none ↔ o = PyVal.nonCounter) ∧
      (interChecked a o = none ↔ o = PyVal.nonCounter) ∧
      (symmDiffChecked a o = none ↔ o = PyVal.nonCounter) ∧
      (∀ c : OrderedCounter K,
        addChecked a (PyVal.counter c) = some (add a c) ∧
        subChecked a (PyVal.counter c) = some (sub a c) ∧
        unionChecked a (PyVal.counter c) = some (union a c) ∧
        interChecked a (PyVal.counter c) = some (inter a c) ∧
        symmDiffChecked a (PyVal.counter c) = some (symmDiff a c)) := by
  intro K _ a o
  cases o <;>
    simp [addChecked, subChecked, unionChecked, interChecked, symmDiffChecked]

/-! ## Round trip (C6) -/

theorem serialize_eq {a : OrderedCounter K} (ha : WF a) : serialize a = a := by
  induction a with
  | nil => rfl
  | cons p t ih =>
    rw [WF, show keys (p :: t) = p.1 :: keys t from rfl, List.nodup_cons] at ha
    obtain ⟨hp, ht⟩ := ha
    have h2 : (keys t).map (fun k => (k, get (p :: t) k)) = serialize t := by
      apply List.map_congr_left
      intro k hk2
      have hne : p.1 ≠ k := fun he => hp (he ▸ hk2)
      rw [get_cons, if_neg hne]
    calc serialize (p :: t)
        = (p.1, get (p :: t) p.1) :: (keys t).map (fun k => (k, get (p :: t) k)) := rfl
      _ = p :: serialize t := by rw [h2, get_cons, if_pos rfl]
      _ = p :: t := by rw [ih ht]

theorem reconstruct_self {a : OrderedCounter K} (ha : WF a) :
    reconstruct a = a := by
  show resLoop (fun p => some p.2) [] a = a
  rw [resLoop_eq _ a [] ha (fun p hp hg => rfl), List.nil_append]
  unfold oFilter
  simp

/-- Claim C6: serializing an instance to its ordered key-count pairs (as
`__reduce__` does) and reconstructing from them yields an instance equal
to the original in both content and iteration order. -/
theorem roundtrip :
    ∀ (K : Type) [DecidableEq K] (a : OrderedCounter K), WF a →
      reconstruct (serialize a) = a := by
  intro K _ a ha
  rw [serialize_eq ha, reconstruct_self ha]

/-- Witness for C6, including zero and negative counts. -/
theorem roundtrip_witness :
    WF [('a', (1 : Int)), ('b', 0), ('c', -2)] ∧
    reconstruct (serialize [('a', (1 : Int)), ('b', 0), ('c', -2)]) =
      [('a', (1 : Int)), ('b', 0), ('c', -2)] :=
  ⟨by decide, roundtrip Char [('a', 1), ('b', 0), ('c', -2)] (by decide)⟩

/-! ## Order preservation (C7) -/

theorem firstWrites_nil (seen : List K) : firstWrites seen [] = [] := rfl

theorem firstWrites_cons_inc (seen : List K) (k : K) (d : Int) (t : List (Mut K)) :
    firstWrites seen (Mut.inc k d :: t) =
      if k ∈ seen then firstWrites seen t
      else k :: firstWrites (k :: seen) t := rfl

theorem firstWrites_cons_seti (seen : List K) (k : K) (n : Int) (t : List (Mut K)) :
    firstWrites seen (Mut.seti k n :: t) =
      if k ∈ seen then firstWrites seen t
      else k :: firstWrites (k :: seen) t := rfl

theorem firstWrites_cons_delk (seen : List K) (k : K) (t : List (Mut K)) :
    firstWrites seen (Mut.delk k :: t) = firstWrites seen t := rfl

theorem firstWrites_congr :
    ∀ (ms : List (Mut K)) (s1 s2 : List K), (∀ x, x ∈ s1 ↔ x ∈ s2) →
      firstWrites s1 ms = firstWrites s2 ms
  | [], _, _, _ => rfl
  | Mut.delk k :: t, s1, s2, h => by
    rw [firstWrites_cons_delk, firstWrites_cons_delk]
    exact firstWrites_congr t s1 s2 h
  | Mut.inc k d :: t, s1, s2, h => by
    rw [firstWrites_cons_inc, firstWrites_cons_inc]
    by_cases hk : k ∈ s1
    · rw [if_pos hk, if_pos ((h k).mp hk), firstWrites_congr t s1 s2 h]
    · rw [if_neg hk, if_neg (fun hc => hk ((h k).mpr hc)),
        firstWrites_congr t (k :: s1) (k :: s2) (fun x => by simp [h x])]
  | Mut.seti k n :: t, s1, s2, h => by
    rw [firstWrites_cons_seti, firstWrites_cons_seti]
    by_cases hk : k ∈ s1
    · rw [if_pos hk, if_pos ((h k).mp hk), firstWrites_congr t s1 s2 h]
    · rw [if_neg hk, if_neg (fun hc => hk ((h k).mpr hc)),
        firstWrites_congr t (k :: s1) (k :: s2) (fun x => by simp [h x])]

theorem keys_applyMuts :
    ∀ (ms : List (Mut K)) (a : OrderedCounter K),
      (∀ m ∈ ms, m.isDelete = false) →
      keys (applyMuts a ms) = keys a ++ firstWrites (keys a) ms
  | [], a, _ => by simp [applyMuts, firstWrites]
  | m :: t, a, h => by
    have ht : ∀ m ∈ t, Mut.isDelete m = false :=
      fun q hq => h q (List.mem_cons_of_mem m hq)
    have hstep : applyMuts a (m :: t) = applyMuts (applyMut a m) t := rfl
    cases m with
    | inc k d =>
      rw [hstep]
      rw [keys_applyMuts t (applyMut a (Mut.inc k d)) ht]
      show keys (setc a k (get a k + d)) ++
          firstWrites (keys (setc a k (get a k + d))) t =
        keys a ++ firstWrites (keys a) (Mut.inc k d :: t)
      rw [keys_setc, firstWrites_cons_inc]
      by_cases hc : containsKey a k = true
      · have hm : k ∈ keys a := (containsKey_iff_mem_keys a k).mp hc
        rw [if_pos hc, if_pos hm]
      · have hm : k ∉ keys a := fun hmem => hc ((containsKey_iff_mem_keys a k).mpr hmem)
        rw [if_neg hc, if_neg hm,
          firstWrites_congr t (keys a ++ [k]) (k :: keys a) (fun x => by simp [or_comm]),
          List.append_assoc]
        rfl
    | seti k n =>
      rw [hstep]
      rw [keys_applyMuts t (applyMut a (Mut.seti k n)) ht]
      show keys (setc a k n) ++ firstWrites (keys (setc a k n)) t =
        keys a ++ firstWrites (keys a) (Mut.seti k n :: t)
      rw [keys_setc, firstWrites_cons_seti]
      by_cases hc : containsKey a k = true
      · have hm : k ∈ keys a := (containsKey_iff_mem_keys a k).mp hc
        rw [if_pos hc, if_pos hm]
      · have hm : k ∉ keys a := fun hmem => hc ((containsKey_iff_mem_keys a k).mpr hmem)
        rw [if_neg hc, if_neg hm,
          firstWrites_congr t (keys a ++ [k]) (k :: keys a) (fun x => by simp [or_comm]),
          List.append_assoc]
        rfl
    | delk k => exact absurd (h (Mut.delk k) (List.mem_cons_self _ _)) (by simp [Mut.isDelete])

/-- Claim C7, amended: for any sequence of constructions and mutations
that contains no deletion, the iteration order is the order in which
each distinct key was first written, and incrementing or overwriting an
already-present key never changes the key order.  (After a deletion a
re-inserted key counts as newly seen and moves to the end.) -/
theorem order_is_first_seen :
    ∀ (K : Type) [DecidableEq K] (ms : List (Mut K)),
      (∀ m ∈ ms, m.isDelete = false) →
      keys (applyMuts [] ms) = firstWrites [] ms ∧
      (∀ (a : OrderedCounter K) (k : K) (d n : Int), containsKey a k = true →
        keys (applyMut a (Mut.inc k d)) = keys a ∧
        keys (applyMut a (Mut.seti k n)) = keys a) := by
  intro K _ ms h
  constructor
  · rw [keys_applyMuts ms [] h]
    rfl
  · intro a k d n hc
    constructor
    · show keys (setc a k (get a k + d)) = keys a
      rw [keys_setc, if_pos hc]
    · show keys (setc a k n) = keys a
      rw [keys_setc, if_pos hc]

/-- Witness for the amended C7: a deletion-free mutation sequence with a
construction, increments of existing keys and an overwrite. -/
theorem order_is_first_seen_witness :
    (∀ m ∈ [Mut.inc 'a' 1, Mut.inc 'b' 1, Mut.inc 'a' 1, Mut.seti 'b' 0],
      m.isDelete = false) ∧
    (keys (applyMuts ([] : OrderedCounter Char)
        [Mut.inc 'a' 1, Mut.inc 'b' 1, Mut.inc 'a' 1, Mut.seti 'b' 0]) =
      firstWrites [] [Mut.inc 'a' 1, Mut.inc 'b' 1, Mut.inc 'a' 1, Mut.seti 'b' 0] ∧
      (∀ (a : OrderedCounter Char) (k : Char) (d n : Int), containsKey a k = true →
        keys (applyMut a (Mut.inc k d)) = keys a ∧
        keys (applyMut a (Mut.seti k n)) = keys a)) :=
  ⟨by decide,
    order_is_first_seen Char
      [Mut.inc 'a' 1, Mut.inc 'b' 1, Mut.inc 'a' 1, Mut.seti 'b' 0] (by decide)⟩

/-- Counterexample to C7 as stated: with deletions allowed, the sequence
`a += 1; b += 1; del a; a += 1` leaves the order `[b, a]`, while the
first-seen order of the written keys (restricted to the keys present) is
`[a, b]`. -/
theorem order_is_first_seen_counterexample :
    keys (applyMuts ([] : OrderedCounter Char)
        [Mut.inc 'a' 1, Mut.inc 'b' 1, Mut.delk 'a', Mut.inc 'a' 1]) ≠
      (firstWrites []
          [Mut.inc 'a' 1, Mut.inc 'b' 1, Mut.delk 'a', Mut.inc 'a' 1]).filter
        (fun k => containsKey (applyMuts ([] : OrderedCounter Char)
          [Mut.inc 'a' 1, Mut.inc 'b' 1, Mut.delk 'a', Mut.inc 'a' 1]) k) := by
  decide

/-! ## Pointwise characterizations, towards C9 -/

theorem containsKey_oFilter_exists {g : K × Int → Option Int} :
    ∀ {b : OrderedCounter K} {k : K}, containsKey (oFilter g b) k = true →
      ∃ p ∈ b, p.1 = k ∧ (g p).isSome = true := by
  intro b
  induction b with
  | nil => intro k h; simp at h
  | cons p t ih =>
    intro k h
    rw [oFilter_cons] at h
    cases hg : g p with
    | some n =>
      rw [hg] at h
      by_cases hp : p.1 = k
      · exact ⟨p, List.mem_cons_self p t, hp, by rw [hg]; rfl⟩
      · rw [containsKey_cons, if_neg hp] at h
        obtain ⟨q, hq, hq1, hq2⟩ := ih h
        exact ⟨q, List.mem_cons_of_mem p hq, hq1, hq2⟩
    | none =>
      rw [hg] at h
      obtain ⟨q, hq, hq1, hq2⟩ := ih h
      exact ⟨q, List.mem_cons_of_mem p hq, hq1, hq2⟩

theorem get_oFilter {g : K × Int → Option Int} :
    ∀ {a : OrderedCounter K}, WF a → ∀ k,
      get (oFilter g a) k =
        if containsKey a k = true then (g (k, get a k)).getD 0 else 0 := by
  intro a
  induction a with
  | nil => intro _ k; simp
  | cons p t ih =>
    intro ha k
    rw [WF, show keys (p :: t) = p.1 :: keys t from rfl, List.nodup_cons] at ha
    obtain ⟨hp, ht⟩ := ha
    obtain ⟨k1, c1⟩ := p
    rw [oFilter_cons]
    by_cases hk : k1 = k
    · subst hk
      have hnt : containsKey t k1 = false := by
        cases hc : containsKey t k1
        · rfl
        · exact absurd ((containsKey_iff_mem_keys t k1).mp hc) hp
      cases hg : g (k1, c1) with
      | some n => simp [hg, get_cons, containsKey_cons]
      | none =>
        have : containsKey (oFilter g t) k1 = false := by
          cases hc : containsKey (oFilter g t) k1
          · rfl
          · rw [containsKey_oFilter_imp hc] at hnt
            exact Bool.noConfusion hnt
        simp [hg, get_eq_zero_of_not_contains this, get_cons, containsKey_cons]
    · have hstep : containsKey ((k1, c1) :: t) k = containsKey t k := by
        rw [containsKey_cons, if_neg hk]
      have hgets : get ((k1, c1) :: t) k = get t k := by
        rw [get_cons, if_neg hk]
      cases hg : g (k1, c1) with
      | some n =>
        rw [hstep, hgets]
        rw [get_cons, if_neg hk]
        exact ih ht k
      | none => rw [hstep, hgets]; exact ih ht k

theorem containsKey_oFilter {g : K × Int → Option Int} :
    ∀ {a : OrderedCounter K}, WF a → ∀ k,
      (containsKey (oFilter g a) k = true ↔
        containsKey a k = true ∧ (g (k, get a k)).isSome = true) := by
  intro a
  induction a with
  | nil => intro _ k; simp
  | cons p t ih =>
    intro ha k
    rw [WF, show keys (p :: t) = p.1 :: keys t from rfl, List.nodup_cons] at ha
    obtain ⟨hp, ht⟩ := ha
    obtain ⟨k1, c1⟩ := p
    rw [oFilter_cons]
    by_cases hk : k1 = k
    · subst hk
      have hnt : containsKey t k1 = false := by
        cases hc : containsKey t k1
        · rfl
        · exact absurd ((containsKey_iff_mem_keys t k1).mp hc) hp
      have hno : containsKey (oFilter g t) k1 = false := by
        cases hc : containsKey (oFilter g t) k1
        · rfl
        · rw [containsKey_oFilter_imp hc] at hnt
          exact Bool.noConfusion hnt
      cases hg : g (k1, c1) with
      | some n => simp [hg, containsKey_cons, get_cons]
      | none => simp [hg, hno, containsKey_cons, get_cons]
    · have hstep : containsKey ((k1, c1) :: t) k = containsKey t k := by
        rw [containsKey_cons, if_neg hk]
      have hgets : get ((k1, c1) :: t) k = get t k := by
        rw [get_cons, if_neg hk]
      cases hg : g (k1, c1) with
      | some n =>
        rw [hstep, hgets, containsKey_cons, if_neg hk]
        exact ih ht k
      | none => rw [hstep, hgets]; exact ih ht k

theorem WF_oFilter {g : K × Int → Option Int} :
    ∀ {a : OrderedCounter K}, WF a → WF (oFilter g a) := by
  intro a
  induction a with
  | nil => intro _; exact List.nodup_nil
  | cons p t ih =>
    intro ha
    rw [WF, show keys (p :: t) = p.1 :: keys t from rfl, List.nodup_cons] at ha
    obtain ⟨hp, ht⟩ := ha
    rw [oFilter_cons]
    cases hg : g p with
    | some n =>
      rw [WF, show keys ((p.1, n) :: oFilter g t) = p.1 :: keys (oFilter g t) from rfl,
        List.nodup_cons]
      refine ⟨fun hmem => ?_, ih ht⟩
      have := containsKey_oFilter_imp ((containsKey_iff_mem_keys _ p.1).mpr hmem)
      exact hp ((containsKey_iff_mem_keys t p.1).mp this)
    | none => exact ih ht

theorem WF_append_spec {g1 g2 : K × Int → Option Int}
    {a b : OrderedCounter K} (ha : WF a) (hb : WF b)
    (h2none : ∀ p : K × Int, containsKey a p.1 = true → g2 p = none) :
    WF (oFilter g1 a ++ oFilter g2 b) := by
  rw [WF, keys, List.map_append]
  rw [List.nodup_append]
  refine ⟨WF_oFilter ha, WF_oFilter hb, ?_⟩
  intro k hk1 hk2
  have hx : containsKey a k = true :=
    containsKey_oFilter_imp ((containsKey_iff_mem_keys _ k).mpr hk1)
  obtain ⟨q, hq, hq1, hq2⟩ :=
    containsKey_oFilter_exists ((containsKey_iff_mem_keys _ k).mpr hk2)
  rw [h2none q (hq1 ▸ hx)] at hq2
  exact Bool.noConfusion hq2

theorem get_append_spec {g1 g2 : K × Int → Option Int}
    {a b : OrderedCounter K} (ha : WF a) (hb : WF b)
    (h2none : ∀ p : K × Int, containsKey a p.1 = true → g2 p = none)
    (h2zero : ∀ x : K, g2 (x, (0 : Int)) = none) (k : K) :
    get (oFilter g1 a ++ oFilter g2 b) k =
      if containsKey a k = true then (g1 (k, get a k)).getD 0
      else (g2 (k, get b k)).getD 0 := by
  rw [get_append]
  by_cases hca : containsKey a k = true
  · rw [if_pos hca]
    cases hg1 : g1 (k, get a k) with
    | some n =>
      have hcx : containsKey (oFilter g1 a) k = true :=
        (containsKey_oFilter ha k).mpr ⟨hca, by rw [hg1]; rfl⟩
      rw [if_pos hcx, get_oFilter ha, if_pos hca, hg1]
    | none =>
      have hcx : containsKey (oFilter g1 a) k = false := by
        cases hc : containsKey (oFilter g1 a) k
        · rfl
        · obtain ⟨_, h2⟩ := (containsKey_oFilter ha k).mp hc
          rw [hg1] at h2
          exact Bool.noConfusion h2
      rw [if_neg (by simp [hcx]), get_oFilter hb]
      by_cases hcb : containsKey b k = true
      · rw [if_pos hcb, h2none (k, get b k) hca]
      · rw [if_neg hcb]
        rfl
  · rw [if_neg hca]
    have hcx : containsKey (oFilter g1 a) k = false := by
      cases hc : containsKey (oFilter g1 a) k
      · rfl
      · exact absurd (containsKey_oFilter_imp hc) hca
    rw [if_neg (by simp [hcx]), get_oFilter hb]
    by_cases hcb : containsKey b k = true
    · rw [if_pos hcb]
    · rw [if_neg hcb, get_eq_zero_of_not_contains (by
        cases hc : containsKey b k
        · rfl
        · exact absurd hc hcb), h2zero k]
      rfl

theorem oFilter_pos {g : K × Int → Option Int}
    (hg : ∀ (q : K × Int) (n : Int), g q = some n → 0 < n) :
    ∀ {l : OrderedCounter K} (p : K × Int), p ∈ oFilter g l → 0 < p.2 := by
  intro l
  induction l with
  | nil => intro p hp; simp at hp
  | cons q t ih =>
    intro p hp
    rw [oFilter_cons] at hp
    cases hgq : g q with
    | some n =>
      rw [hgq] at hp
      rcases List.mem_cons.mp hp with h | h
      · rw [h]; exact hg q n hgq
      · exact ih p h
    | none => rw [hgq] at hp; exact ih p hp

theorem containsKey_iff_pos_get {r : OrderedCounter K}
    (hpos : ∀ p ∈ r, 0 < p.2) (k : K) :
    containsKey r k = true ↔ 0 < get r k := by
  induction r with
  | nil => simp
  | cons p t ih =>
    by_cases hp : p.1 = k
    · rw [containsKey_cons, if_pos hp, get_cons, if_pos hp]
      simp [hpos p (List.mem_cons_self p t)]
    · rw [containsKey_cons, if_neg hp, get_cons, if_neg hp]
      exact ih (fun q hq => hpos q (List.mem_cons_of_mem p hq))

theorem get_nonneg {a : OrderedCounter K} (hna : Nonneg a) (k : K) :
    0 ≤ get a k := by
  induction a with
  | nil => simp
  | cons p t ih =>
    rw [get_cons]
    by_cases hp : p.1 = k
    · rw [if_pos hp]; exact hna p (List.mem_cons_self p t)
    · rw [if_neg hp]
      exact ih (fun q hq => hna q (List.mem_cons_of_mem p hq))

theorem bool_eq_of_iff {x y : Bool} (h : x = true ↔ y = true) : x = y := by
  cases x <;> cases y <;> simp_all

theorem WF_add (a b : OrderedCounter K) (ha : WF a) (hb : WF b) :
    WF (add a b) := by
  rw [add_eq a b ha hb]
  exact WF_append_spec ha hb (fun p hp => by simp [hp])

theorem WF_sub (a b : OrderedCounter K) (ha : WF a) (hb : WF b) :
    WF (sub a b) := by
  rw [sub_eq a b ha hb]
  exact WF_append_spec ha hb (fun p hp => by simp [hp])

theorem WF_union (a b : OrderedCounter K) (ha : WF a) (hb : WF b) :
    WF (union a b) := by
  rw [union_eq a b ha hb]
  exact WF_append_spec ha hb (fun p hp => by simp [hp])

theorem WF_inter (a b : OrderedCounter K) (ha : WF a) : WF (inter a b) := by
  rw [inter_eq a b ha]
  exact WF_oFilter ha

theorem add_pos_entries (a b : OrderedCounter K) (ha : WF a) (hb : WF b) :
    ∀ p ∈ add a b, 0 < p.2 := by
  rw [add_eq a b ha hb]
  intro p hp
  rcases List.mem_append.mp hp with h | h
  · refine oFilter_pos ?_ p h
    intro q n hq
    simp only at hq
    split at hq
    · cases hq; omega
    · exact Option.noConfusion hq
  · refine oFilter_pos ?_ p h
    intro q n hq
    simp only at hq
    split at hq
    · exact Option.noConfusion hq
    · split at hq
      · cases hq; omega
      · exact Option.noConfusion hq

theorem sub_pos_entries (a b : OrderedCounter K) (ha : WF a) (hb : WF b) :
    ∀ p ∈ sub a b, 0 < p.2 := by
  rw [sub_eq a b ha hb]
  intro p hp
  rcases List.mem_append.mp hp with h | h
  · refine oFilter_pos ?_ p h
    intro q n hq
    simp only at hq
    split at hq
    · cases hq; omega
    · exact Option.noConfusion hq
  · refine oFilter_pos ?_ p h
    intro q n hq
    simp only at hq
    split at hq
    · exact Option.noConfusion hq
    · split at hq
      · cases hq; omega
      · exact Option.noConfusion hq

theorem union_pos_entries (a b : OrderedCounter K) (ha : WF a) (hb : WF b) :
    ∀ p ∈ union a b, 0 < p.2 := by
  rw [union_eq a b ha hb]
  intro p hp
  rcases List.mem_append.mp hp with h | h
  · refine oFilter_pos ?_ p h
    intro q n hq
    simp only at hq
    split at hq
    · cases hq; omega
    · exact Option.noConfusion hq
  · refine oFilter_pos ?_ p h
    intro q n hq
    simp only at hq
    split at hq
    · exact Option.noConfusion hq
    · split at hq
      · cases hq; omega
      · exact Option.noConfusion hq

theorem inter_pos_entries (a b : OrderedCounter K) (ha : WF a) :
    ∀ p ∈ inter a b, 0 < p.2 := by
  rw [inter_eq a b ha]
  intro p hp
  refine oFilter_pos ?_ p hp
  intro q n hq
  simp only at hq
  split at hq
  · cases hq; omega
  · exact Option.noConfusion hq

theorem get_add_char (a b : OrderedCounter K) (ha : WF a) (hb : WF b) (k : K) :
    get (add a b) k =
      if containsKey a k = true then
        (if 0 < get a k + get b k then get a k + get b k else 0)
      else if 0 < get b k then get b k else 0 := by
  rw [add_eq a b ha hb]
  unfold addSpec
  rw [get_append_spec ha hb (fun p hp => by simp [hp])
    (fun x => by by_cases hx : containsKey a x = true <;> simp [hx]) k]
  by_cases hca : containsKey a k = true
  · rw [if_pos hca, if_pos hca]
    by_cases h : 0 < get a k + get b k <;> simp [h]
  · rw [if_neg hca, if_neg hca]
    by_cases h : 0 < get b k <;> simp [hca, h]

theorem get_sub_char (a b : OrderedCounter K) (ha : WF a) (hb : WF b) (k : K) :
    get (sub a b) k =
      if containsKey a k = true then
        (if 0 < get a k - get b k then get a k - get b k else 0)
      else if get b k < 0 then -(get b k) else 0 := by
  rw [sub_eq a b ha hb]
  unfold subSpec
  rw [get_append_spec ha hb (fun p hp => by simp [hp])
    (fun x => by by_cases hx : containsKey a x = true <;> simp [hx]) k]
  by_cases hca : containsKey a k = true
  · rw [if_pos hca, if_pos hca]
    by_cases h : 0 < get a k - get b k <;> simp [h]
  · rw [if_neg hca, if_neg hca]
    by_cases h : get b k < 0 <;> simp [hca, h]

theorem get_union_char (a b : OrderedCounter K) (ha : WF a) (hb : WF b) (k : K) :
    get (union a b) k =
      if containsKey a k = true then
        (if 0 < max (get a k) (get b k) then max (get a k) (get b k) else 0)
      else if 0 < get b k then get b k else 0 := by
  rw [union_eq a b ha hb]
  unfold unionSpec
  rw [get_append_spec ha hb (fun p hp => by simp [hp])
    (fun x => by by_cases hx : containsKey a x = true <;> simp [hx]) k]
  by_cases hca : containsKey a k = true
  · rw [if_pos hca, if_pos hca]
    by_cases h : 0 < max (get a k) (get b k) <;> simp [h]
  · rw [if_neg hca, if_neg hca]
    by_cases h : 0 < get b k <;> simp [hca, h]

theorem get_inter_char (a b : OrderedCounter K) (ha : WF a) (k : K) :
    get (inter a b) k =
      if containsKey a k = true then
        (if 0 < min (get a k) (get b k) then min (get a k) (get b k) else 0)
      else 0 := by
  rw [inter_eq a b ha]
  unfold interSpec
  rw [get_oFilter ha k]
  by_cases hca : containsKey a k = true
  · rw [if_pos hca, if_pos hca]
    by_cases h : 0 < min (get a k) (get b k) <;> simp [h]
  · rw [if_neg hca, if_neg hca]

set_option maxHeartbeats 1600000 in
/-- Claim C9: for counters with nonnegative counts,
`Union(a, b)` equals `Add(Intersect(a, b), SymmetricDifference(a, b))`
in content (key set and count at every key); iteration order is not
compared. -/
theorem union_complementarity :
    ∀ (K : Type) [DecidableEq K] (a b : OrderedCounter K),
      WF a → WF b → Nonneg a → Nonneg b →
      contentEq (union a b) (add (inter a b) (symmDiff a b)) := by
  intro K _ a b ha hb hna hnb
  have hWFu : WF (union a b) := WF_union a b ha hb
  have hWFi : WF (inter a b) := WF_inter a b ha
  have hWFd : WF (sub (union a b) (inter a b)) := WF_sub _ _ hWFu hWFi
  have hposU := union_pos_entries a b ha hb
  have hposI := inter_pos_entries a b ha
  have hposD := sub_pos_entries _ _ hWFu hWFi
  have hposR := add_pos_entries _ _ hWFi hWFd
  rw [show symmDiff a b = sub (union a b) (inter a b) from rfl]
  intro k
  have hga := get_nonneg hna k
  have hgb := get_nonneg hnb k
  have hu := get_union_char a b ha hb k
  have hi := get_inter_char a b ha k
  have hd := get_sub_char (union a b) (inter a b) hWFu hWFi k
  have hr := get_add_char (inter a b) (sub (union a b) (inter a b)) hWFi hWFd k
  have hcu := containsKey_iff_pos_get hposU k
  have hci := containsKey_iff_pos_get hposI k
  have hcr := containsKey_iff_pos_get hposR k
  have hget : get (union a b) k =
      get (add (inter a b) (sub (union a b) (inter a b))) k := by
    rw [hr]
    simp only [hci]
    rw [hd]
    simp only [hcu]
    rw [hi, hu]
    by_cases hca : containsKey a k = true
    · simp only [if_pos hca]
      split_ifs <;> omega
    · have hca' : containsKey a k = false := by
        cases hc : containsKey a k
        · rfl
        · exact absurd hc hca
      have hga0 : get a k = 0 := get_eq_zero_of_not_contains hca'
      simp only [if_neg hca, hga0]
      split_ifs <;> omega
  exact ⟨hget, bool_eq_of_iff (by rw [hcu, hcr, hget])⟩

/-- Witness for C9 on the nonnegative counters of the spec's scenarios. -/
theorem union_complementarity_witness :
    WF (ofString "abbbd") ∧ WF (ofString "bcc") ∧
    Nonneg (ofString "abbbd") ∧ Nonneg (ofString "bcc") ∧
    contentEq (union (ofString "abbbd") (ofString "bcc"))
      (add (inter (ofString "abbbd") (ofString "bcc"))
        (symmDiff (ofString "abbbd") (ofString "bcc"))) :=
  ⟨by decide, by decide, by decide, by decide,
    union_complementarity Char (ofString "abbbd") (ofString "bcc")
      (by decide) (by decide) (by decide) (by decide)⟩

/-- Claim C10: every binary and unary operation run leaves `self` and
`other` exactly as they were; the result accumulates in a fresh
instance.  For the symmetric difference, the final subtraction leaves
its own receiver and operand (the union and intersection results)
untouched as well. -/
theorem ops_preserve_operands :
    ∀ (K : Type) [DecidableEq K] (a b : OrderedCounter K),
      ((addRun a b).self = a ∧ (addRun a b).other = b) ∧
      ((subRun a b).self = a ∧ (subRun a b).other = b) ∧
      ((orRun a b).self = a ∧ (orRun a b).other = b) ∧
      ((andRun a b).self = a ∧ (andRun a b).other = b) ∧
      ((subRun (union a b) (inter a b)).self = union a b ∧
        (subRun (union a b) (inter a b)).other = inter a b) ∧
      (posRun a).self = a ∧ (negRun a).self = a := by
  intro K _ a b
  simp [addRun, subRun, orRun, andRun, posRun, negRun,
    opLoop_self, opLoop_other]

end OrderedCounter
